import Mathlib

/-!
Verification of the BlockCraft ledger engine (src/Blockcraft.py).

The engine is embedded shallowly:

* A transaction is the Python dict with keys 'from', 'to', 'amount',
  'timestamp', 'type' (fields `tx_from`, `tx_to`, `amount`, `tx_timestamp`,
  `tx_type`).  Amounts are modelled as integers.
* The hash primitive (json.dumps with sorted keys followed by
  hashlib.sha256(...).hexdigest()) is an external library call; it is
  abstracted as a function `H` over the five hashed fields
  (index, transactions, timestamp, previous_hash, nonce).  Every theorem is
  parametric in `H`; concrete instantiations are used for witnesses.
* Wall-clock captures (time.time(), datetime.now()) are opaque inputs passed
  explicitly.
* The unbounded proof-of-work loop in `Block.mine_block` is modelled with an
  explicit fuel parameter, returning `none` when the fuel runs out before the
  search succeeds; termination statements quantify over the fuel.
-/

/-- A transaction record: the dict {'from', 'to', 'amount', 'timestamp', 'type'}. -/
structure Transaction where
  tx_from : String
  tx_to : String
  amount : Int
  tx_timestamp : String
  tx_type : String
deriving DecidableEq, Repr

/-- A block: index, transactions, timestamp, previous_hash, nonce, hash
(Blockcraft.py lines 14-20). -/
structure Block where
  index : Nat
  transactions : List Transaction
  timestamp : Nat
  previous_hash : String
  nonce : Nat
  hash : String
deriving DecidableEq, Repr

/-- Type of the abstract hash primitive over a block's five hashed fields. -/
abbrev HashFun := Nat → List Transaction → Nat → String → Nat → String

/-- `Block.calculate_hash` (lines 22-34): the digest of the five hashed fields;
the stored `hash` field is not an input. -/
def calculate_hash (H : HashFun) (b : Block) : String :=
  H b.index b.transactions b.timestamp b.previous_hash b.nonce

/-- The digest a block would have if its nonce were `n`, all other fields kept. -/
def hashAt (H : HashFun) (b : Block) (n : Nat) : String :=
  H b.index b.transactions b.timestamp b.previous_hash n

/-- The `Block.__init__` constructor (lines 14-20): stores the arguments and
computes `hash = calculate_hash()`. -/
def Block.new (H : HashFun) (index : Nat) (transactions : List Transaction)
    (timestamp : Nat) (previous_hash : String) (nonce : Nat) : Block :=
  { index := index, transactions := transactions, timestamp := timestamp,
    previous_hash := previous_hash, nonce := nonce,
    hash := H index transactions timestamp previous_hash nonce }

/-- `"0" * difficulty` (line 41): the proof-of-work target string. -/
def target (difficulty : Nat) : String :=
  String.mk (List.replicate difficulty '0')

/-- The loop guard `self.hash[:difficulty] == target` (line 42), on an
arbitrary digest string. -/
def hashMeets (difficulty : Nat) (s : String) : Bool :=
  s.take difficulty == target difficulty

/-- `Block.mine_block` (lines 36-45) with explicit fuel: while the stored hash
does not meet the target, increment the nonce and recompute the hash.
Returns `none` when the fuel is exhausted before the loop exits. -/
def mine_block (H : HashFun) (difficulty : Nat) : Nat → Block → Option Block
  | 0, _ => none
  | fuel + 1, b =>
    if hashMeets difficulty b.hash then some b
    else
      let b1 : Block := { b with nonce := b.nonce + 1 }
      mine_block H difficulty fuel { b1 with hash := calculate_hash H b1 }

/-- The ledger: chain, difficulty, pending pool, mining reward
(Blockcraft.py lines 52-56). -/
structure Blockchain where
  chain : List Block
  difficulty : Nat
  pending_transactions : List Transaction
  mining_reward : Int
deriving DecidableEq, Repr

/-- `Blockchain.create_genesis_block` (lines 58-63): `Block(0, [], time.time(), "0")`. -/
def create_genesis_block (H : HashFun) (ts : Nat) : Block :=
  Block.new H 0 [] ts "0" 0

/-- `Blockchain.__init__` (lines 52-56): genesis chain, difficulty 2,
empty pool, reward 100. -/
def Blockchain.init (H : HashFun) (ts : Nat) : Blockchain :=
  { chain := [create_genesis_block H ts], difficulty := 2,
    pending_transactions := [], mining_reward := 100 }

/-- A placeholder block; `chain[-1]` in the source presupposes a non-empty
chain, which holds in every reachable state. -/
def dummyBlock : Block :=
  { index := 0, transactions := [], timestamp := 0, previous_hash := "",
    nonce := 0, hash := "" }

/-- `Blockchain.get_latest_block` (lines 65-67): `self.chain[-1]`. -/
def get_latest_block (bc : Blockchain) : Block :=
  bc.chain.getLastD dummyBlock

/-- `Blockchain.add_transaction` (lines 69-74): unconditional append to the
pending pool. -/
def add_transaction (bc : Blockchain) (t : Transaction) : Blockchain :=
  { bc with pending_transactions := bc.pending_transactions ++ [t] }

/-- The reward transaction synthesized in `mine_pending_transactions`
(lines 85-91). -/
def reward_transaction (addr : String) (reward : Int) (ts : String) : Transaction :=
  { tx_from := "SYSTEM", tx_to := addr, amount := reward,
    tx_timestamp := ts, tx_type := "mining_reward" }

/-- `Blockchain.mine_pending_transactions` (lines 76-109): copy the pool,
append the reward transaction, build a block at the tip, mine it, append it,
clear the pool.  `rewardTs` and `blockTs` are the two wall-clock captures. -/
def mine_pending_transactions (H : HashFun) (fuel : Nat) (bc : Blockchain)
    (addr : String) (rewardTs : String) (blockTs : Nat) :
    Option (Blockchain × Block) :=
  let transactions_to_mine :=
    bc.pending_transactions ++ [reward_transaction addr bc.mining_reward rewardTs]
  let block := Block.new H bc.chain.length transactions_to_mine blockTs
    (get_latest_block bc).hash 0
  match mine_block H bc.difficulty fuel block with
  | none => none
  | some mined =>
    some ({ bc with chain := bc.chain ++ [mined], pending_transactions := [] },
      mined)

/-- The body of the inner loop of `get_balance` (lines 121-125): subtract the
amount when the address is the sender, add it when it is the recipient. -/
def process_transaction (address : String) (balance : Int) (t : Transaction) : Int :=
  let balance := if t.tx_from == address then balance - t.amount else balance
  if t.tx_to == address then balance + t.amount else balance

/-- `Blockchain.get_balance` (lines 111-127): fold `process_transaction` over
every transaction of every block in the chain, starting from 0. -/
def get_balance (bc : Blockchain) (address : String) : Int :=
  bc.chain.foldl
    (fun bal block => block.transactions.foldl (process_transaction address) bal) 0

/-- The two checks of the validation loop body (lines 138-144) applied along a
list, the running `previous_block` passed explicitly. -/
def checkLinks (H : HashFun) : Block → List Block → Bool
  | _, [] => true
  | prev, b :: rest =>
    if b.hash != calculate_hash H b then false
    else if b.previous_hash != prev.hash then false
    else checkLinks H b rest

/-- `Blockchain.is_chain_valid` (lines 129-146): run the loop body for
`i = 1 .. len(chain)-1`; an empty range yields `True`. -/
def is_chain_valid (H : HashFun) (bc : Blockchain) : Bool :=
  match bc.chain with
  | [] => true
  | g :: rest => checkLinks H g rest

/-- Linkage between consecutive blocks: the later block's `previous_hash` is
the earlier block's stored digest. -/
def chainLink (a b : Block) : Prop :=
  b.previous_hash = a.hash

instance : DecidableRel chainLink := fun a b =>
  inferInstanceAs (Decidable (b.previous_hash = a.hash))

/-- Validation predicate as claim C2 words it: EVERY block's stored digest
(including the genesis block's) equals the recomputed digest, and every
non-genesis block's previous_hash equals its predecessor's digest. -/
def valid_claim_spec (H : HashFun) (bc : Blockchain) : Prop :=
  (∀ b ∈ bc.chain, b.hash = calculate_hash H b) ∧
    List.Chain' chainLink bc.chain

/-- Validation predicate as the code implements it: every NON-genesis block's
stored digest equals the recomputed digest, and every non-genesis block's
previous_hash equals its predecessor's digest. -/
def valid_code_spec (H : HashFun) (bc : Blockchain) : Prop :=
  (∀ b ∈ bc.chain.tail, b.hash = calculate_hash H b) ∧
    List.Chain' chainLink bc.chain

/-- Net effect of one transaction on an address's balance. -/
def netAmount (address : String) (t : Transaction) : Int :=
  (if t.tx_to == address then t.amount else 0) -
    (if t.tx_from == address then t.amount else 0)

/-- All transactions of all sealed blocks of a chain, in order. -/
def chainTxs (chain : List Block) : List Transaction :=
  (chain.map Block.transactions).flatten

/-- Total amount received by an address across all sealed blocks. -/
def receivedSum (chain : List Block) (address : String) : Int :=
  (((chainTxs chain).filter (fun t => t.tx_to == address)).map Transaction.amount).sum

/-- Total amount sent by an address across all sealed blocks. -/
def sentSum (chain : List Block) (address : String) : Int :=
  (((chainTxs chain).filter (fun t => t.tx_from == address)).map Transaction.amount).sum

/-- Ledger states reachable from a fresh ledger by add_transaction and
mine_pending_transactions calls (the engine's public mutating surface). -/
inductive Reachable (H : HashFun) : Blockchain → Prop
  | init (ts : Nat) : Reachable H (Blockchain.init H ts)
  | add {bc : Blockchain} (t : Transaction) :
      Reachable H bc → Reachable H (add_transaction bc t)
  | mine {bc bc' : Blockchain} {blk : Block} (fuel : Nat) (addr : String)
      (rewardTs : String) (blockTs : Nat) :
      Reachable H bc →
      mine_pending_transactions H fuel bc addr rewardTs blockTs = some (bc', blk) →
      Reachable H bc'

/-! ### Lemmas about the mining loop -/

/-- Whenever the mining loop returns, the result keeps the static fields and
the nonce never decreased; the final hash meets the target; and the final
block is either the input unchanged or carries a freshly recomputed hash. -/
theorem mine_block_props (H : HashFun) (d : Nat) (fuel : Nat) :
    ∀ b b' : Block, mine_block H d fuel b = some b' →
      b'.index = b.index ∧ b'.transactions = b.transactions ∧
      b'.timestamp = b.timestamp ∧ b'.previous_hash = b.previous_hash ∧
      b.nonce ≤ b'.nonce ∧ hashMeets d b'.hash = true ∧
      (b' = b ∨ b'.hash = calculate_hash H b') := by
  induction fuel with
  | zero => intro b b' h; simp [mine_block] at h
  | succ fuel ih =>
    intro b b' h
    rw [mine_block] at h
    by_cases hm : hashMeets d b.hash = true
    · rw [if_pos hm] at h
      cases h
      exact ⟨rfl, rfl, rfl, rfl, le_refl _, hm, Or.inl rfl⟩
    · rw [if_neg hm] at h
      obtain ⟨h1, h2, h3, h4, h5, h6, h7⟩ := ih _ _ h
      refine ⟨h1, h2, h3, h4, ?_, h6, ?_⟩
      · exact le_trans (Nat.le_succ _) h5
      · rcases h7 with rfl | h7
        · exact Or.inr rfl
        · exact Or.inr h7

/-- If some nonce `b.nonce + k` would make the digest meet the target, then
the loop succeeds within `k + 1` iterations, the result is hash-consistent,
and every nonce strictly below the final one fails the target. -/
theorem mine_block_find (H : HashFun) (d : Nat) :
    ∀ (k : Nat) (b : Block), b.hash = calculate_hash H b →
      hashMeets d (hashAt H b (b.nonce + k)) = true →
      ∃ b', mine_block H d (k + 1) b = some b' ∧
        b'.index = b.index ∧ b'.transactions = b.transactions ∧
        b'.timestamp = b.timestamp ∧ b'.previous_hash = b.previous_hash ∧
        b'.hash = calculate_hash H b' ∧
        b.nonce ≤ b'.nonce ∧ b'.nonce ≤ b.nonce + k ∧
        (∀ m, b.nonce ≤ m → m < b'.nonce → hashMeets d (hashAt H b m) = false) := by
  intro k
  induction k with
  | zero =>
    intro b hb hk
    have hm : hashMeets d b.hash = true := by
      rw [hb]; exact hk
    refine ⟨b, ?_, rfl, rfl, rfl, rfl, hb, le_refl _, le_refl _, ?_⟩
    · rw [mine_block, if_pos hm]
    · intro m h1 h2; omega
  | succ k ih =>
    intro b hb hk
    by_cases hm : hashMeets d b.hash = true
    · refine ⟨b, ?_, rfl, rfl, rfl, rfl, hb, le_refl _, Nat.le_add_right _ _, ?_⟩
      · rw [mine_block, if_pos hm]
      · intro m h1 h2; omega
    · have hk2 : hashMeets d
          (hashAt H { { b with nonce := b.nonce + 1 } with
            hash := calculate_hash H { b with nonce := b.nonce + 1 } }
            (({ { b with nonce := b.nonce + 1 } with
              hash := calculate_hash H { b with nonce := b.nonce + 1 } }).nonce + k))
          = true := by
        have : b.nonce + 1 + k = b.nonce + (k + 1) := by omega
        show hashMeets d (hashAt H b (b.nonce + 1 + k)) = true
        rw [this]; exact hk
      obtain ⟨b', hmine, h1, h2, h3, h4, h5, h6, h7, h8⟩ := ih _ rfl hk2
      refine ⟨b', ?_, h1, h2, h3, h4, h5, ?_, ?_, ?_⟩
      · rw [mine_block, if_neg hm]; exact hmine
      · exact le_trans (Nat.le_succ _) h6
      · have : ({ { b with nonce := b.nonce + 1 } with
            hash := calculate_hash H { b with nonce := b.nonce + 1 } }).nonce
            = b.nonce + 1 := rfl
        omega
      · intro m hm1 hm2
        rcases Nat.eq_or_lt_of_le hm1 with heq | hlt
        · have : hashAt H b m = b.hash := by
            rw [hb, ← heq]; rfl
          rw [this]
          exact Bool.eq_false_iff.mpr hm
        · exact h8 m hlt hm2

/-! ### Concrete hash functions used by witnesses and counterexamples -/

/-- A constant hash whose output already meets difficulty 2. -/
def H0 : HashFun := fun _ _ _ _ _ => "00abc"

/-- A hash that fails the difficulty-1 target until the nonce reaches 2. -/
def Hstep : HashFun := fun _ _ _ _ n => if n == 2 then "0a" else "bb"

/-! ### C1, C7, C9: the mining loop -/

/-- C1: for every hash-consistent block and every difficulty `d ≥ 0`, whenever
`mine_block d` returns, the digest's first `d` characters are all `'0'` and
the stored digest equals the hash of the block's fields at the final nonce. -/
theorem mine_block_seals (H : HashFun) (d fuel : Nat) (b b' : Block)
    (hb : b.hash = calculate_hash H b)
    (h : mine_block H d fuel b = some b') :
    b'.hash.take d = target d ∧ b'.hash = calculate_hash H b' := by
  obtain ⟨-, -, -, -, -, h6, h7⟩ := mine_block_props H d fuel b b' h
  constructor
  · rw [hashMeets] at h6
    exact eq_of_beq h6
  · rcases h7 with rfl | h7
    · exact hb
    · exact h7

/-- Witness for C1 at a concrete hash function, block and difficulty 2. -/
theorem mine_block_seals_witness :
    (Block.new H0 0 [] 0 "0" 0).hash = calculate_hash H0 (Block.new H0 0 [] 0 "0" 0) ∧
    mine_block H0 2 1 (Block.new H0 0 [] 0 "0" 0) = some (Block.new H0 0 [] 0 "0" 0) ∧
    ((Block.new H0 0 [] 0 "0" 0).hash.take 2 = target 2 ∧
      (Block.new H0 0 [] 0 "0" 0).hash = calculate_hash H0 (Block.new H0 0 [] 0 "0" 0)) :=
  ⟨rfl, by decide,
    mine_block_seals H0 2 1 (Block.new H0 0 [] 0 "0" 0)
      (Block.new H0 0 [] 0 "0" 0) rfl (by decide)⟩

/-- C7: with difficulty 0 the loop guard is satisfied by the very first
predicate evaluation, for any block and any positive fuel: the loop exits at
once, the block (and so its nonce) is returned unchanged. -/
theorem mine_block_difficulty_zero (H : HashFun) (fuel : Nat) (b : Block) :
    mine_block H 0 (fuel + 1) b = some b := by
  have h1 : b.hash.take 0 = "" := rfl
  have hm : hashMeets 0 b.hash = true := by
    show (b.hash.take 0 == target 0) = true
    rw [h1]; decide
  rw [mine_block, if_pos hm]

/-- C9: for a hash-consistent block, if some nonce `b.nonce + k` makes the
digest of the block's other fields meet the difficulty predicate, then mining
terminates (fuel `k + 1` suffices) with the least satisfying nonce
`≥ b.nonce`; in particular the nonce is unchanged when the digest at the
initial nonce already meets the target. -/
theorem mine_block_minimal (H : HashFun) (d : Nat) (k : Nat) (b : Block)
    (hb : b.hash = calculate_hash H b)
    (hk : hashMeets d (hashAt H b (b.nonce + k)) = true) :
    ∃ b', mine_block H d (k + 1) b = some b' ∧
      hashMeets d (hashAt H b b'.nonce) = true ∧
      b.nonce ≤ b'.nonce ∧
      (∀ m, b.nonce ≤ m → hashMeets d (hashAt H b m) = true → b'.nonce ≤ m) ∧
      (hashMeets d (hashAt H b b.nonce) = true → b'.nonce = b.nonce) := by
  obtain ⟨b', hmine, h1, h2, h3, h4, h5, h6, h7, h8⟩ := mine_block_find H d k b hb hk
  have hcons : hashAt H b b'.nonce = b'.hash := by
    rw [h5, calculate_hash, hashAt, h1, h2, h3, h4]
  refine ⟨b', hmine, ?_, h6, ?_, ?_⟩
  · rw [hcons]
    exact (mine_block_props H d (k + 1) b b' hmine).2.2.2.2.2.1
  · intro m hm1 hm2
    by_contra hlt
    push_neg at hlt
    have hfalse := h8 m hm1 hlt
    rw [hm2] at hfalse
    exact Bool.noConfusion hfalse
  · intro h0
    have hle : b'.nonce ≤ b.nonce := by
      by_contra hlt
      push_neg at hlt
      have hfalse := h8 b.nonce (le_refl _) hlt
      rw [h0] at hfalse
      exact Bool.noConfusion hfalse
    omega

/-- Witness for C9: with `Hstep` and difficulty 1 the search starting at
nonce 0 must stop exactly at nonce 2. -/
theorem mine_block_minimal_witness :
    (Block.new Hstep 0 [] 0 "0" 0).hash
        = calculate_hash Hstep (Block.new Hstep 0 [] 0 "0" 0) ∧
    hashMeets 1 (hashAt Hstep (Block.new Hstep 0 [] 0 "0" 0)
        ((Block.new Hstep 0 [] 0 "0" 0).nonce + 2)) = true ∧
    (∃ b', mine_block Hstep 1 (2 + 1) (Block.new Hstep 0 [] 0 "0" 0) = some b' ∧
      hashMeets 1 (hashAt Hstep (Block.new Hstep 0 [] 0 "0" 0) b'.nonce) = true ∧
      (Block.new Hstep 0 [] 0 "0" 0).nonce ≤ b'.nonce ∧
      (∀ m, (Block.new Hstep 0 [] 0 "0" 0).nonce ≤ m →
        hashMeets 1 (hashAt Hstep (Block.new Hstep 0 [] 0 "0" 0) m) = true →
        b'.nonce ≤ m) ∧
      (hashMeets 1 (hashAt Hstep (Block.new Hstep 0 [] 0 "0" 0)
          (Block.new Hstep 0 [] 0 "0" 0).nonce) = true →
        b'.nonce = (Block.new Hstep 0 [] 0 "0" 0).nonce)) :=
  ⟨rfl, by decide,
    mine_block_minimal Hstep 1 2 (Block.new Hstep 0 [] 0 "0" 0) rfl (by decide)⟩

/-! ### C2, C10: chain validation -/

/-- The validation loop starting after `prev` accepts exactly when every
visited block is hash-consistent and the linkage chain from `prev` holds. -/
theorem checkLinks_iff (H : HashFun) :
    ∀ (prev : Block) (l : List Block),
      checkLinks H prev l = true ↔
        (∀ b ∈ l, b.hash = calculate_hash H b) ∧ List.Chain chainLink prev l := by
  intro prev l
  induction l generalizing prev with
  | nil => simp [checkLinks]
  | cons b rest ih =>
    rw [checkLinks]
    by_cases h1 : b.hash = calculate_hash H b
    · by_cases h2 : b.previous_hash = prev.hash
      · simp [h1, h2, ih, chainLink, List.chain_cons]
      · simp [h1, h2, chainLink, List.chain_cons]
    · simp [h1, chainLink, List.chain_cons]

/-- C2 (amended): `is_chain_valid` is true iff every NON-genesis block's
stored digest equals the recomputed digest and every non-genesis block's
previous_hash equals its predecessor's stored digest; the genesis block's
own digest is never checked. -/
theorem is_chain_valid_iff (H : HashFun) (bc : Blockchain) :
    is_chain_valid H bc = true ↔ valid_code_spec H bc := by
  rw [valid_code_spec]
  cases hc : bc.chain with
  | nil => simp [is_chain_valid, hc]
  | cons g rest =>
    simp only [is_chain_valid, hc, List.tail_cons]
    rw [checkLinks_iff]
    simp [List.Chain']

/-- A genesis block whose stored digest disagrees with the recomputed one
(under `H0`). -/
def badBlock : Block :=
  { index := 0, transactions := [], timestamp := 0,
    previous_hash := "0", nonce := 0, hash := "x" }

/-- A single-block ledger built on `badBlock`. -/
def badChain : Blockchain :=
  { chain := [badBlock], difficulty := 2,
    pending_transactions := [], mining_reward := 100 }

/-- Counterexample to C2 as stated: with the constant hash `H0`, `badChain`
is accepted by `is_chain_valid` although its genesis block's stored digest
does not equal the recomputed digest, so the claimed iff fails. -/
theorem is_chain_valid_claim_counterexample :
    ¬ (is_chain_valid H0 badChain = true ↔ valid_claim_spec H0 badChain) := by
  intro h
  have h2 := h.mp rfl
  have h3 := h2.1 badBlock (by simp [badChain])
  exact absurd h3 (by decide)

/-- C10: a ledger whose chain holds exactly one block is always declared
valid, whatever the fields or the stored digest of that block: the loop of
`is_chain_valid` never examines the genesis block's own digest. -/
theorem is_chain_valid_singleton (H : HashFun) (b : Block) (d : Nat)
    (p : List Transaction) (r : Int) :
    is_chain_valid H
      { chain := [b], difficulty := d, pending_transactions := p,
        mining_reward := r } = true := rfl

/-! ### C3: balance accounting -/

/-- One loop body of `get_balance` adds the net effect of the transaction. -/
theorem process_transaction_eq (a : String) (bal : Int) (t : Transaction) :
    process_transaction a bal t = bal + netAmount a t := by
  rw [process_transaction, netAmount]
  by_cases h1 : t.tx_from == a <;> by_cases h2 : t.tx_to == a <;>
    simp [h1, h2] <;> ring

/-- The inner fold of `get_balance` adds the net effects of a block's
transactions. -/
theorem foldl_process_eq (a : String) :
    ∀ (l : List Transaction) (bal : Int),
      l.foldl (process_transaction a) bal = bal + (l.map (netAmount a)).sum := by
  intro l
  induction l with
  | nil => intro bal; simp
  | cons t rest ih =>
    intro bal
    rw [List.foldl_cons, ih, process_transaction_eq, List.map_cons, List.sum_cons]
    ring

/-- The outer fold of `get_balance` adds the net effects of all transactions
of all blocks. -/
theorem foldl_blocks_eq (a : String) :
    ∀ (l : List Block) (bal : Int),
      l.foldl (fun bal block => block.transactions.foldl (process_transaction a) bal) bal
        = bal + ((chainTxs l).map (netAmount a)).sum := by
  intro l
  induction l with
  | nil => intro bal; simp [chainTxs]
  | cons b rest ih =>
    intro bal
    rw [List.foldl_cons, ih, foldl_process_eq]
    simp [chainTxs]
    ring

/-- Net effects decompose into received minus sent. -/
theorem net_split (a : String) :
    ∀ l : List Transaction,
      (l.map (netAmount a)).sum
        = ((l.filter (fun t => t.tx_to == a)).map Transaction.amount).sum
          - ((l.filter (fun t => t.tx_from == a)).map Transaction.amount).sum := by
  intro l
  induction l with
  | nil => simp
  | cons t rest ih =>
    by_cases h1 : t.tx_to == a <;> by_cases h2 : t.tx_from == a <;>
      simp [netAmount, h1, h2, List.filter_cons, ih] <;> ring

/-- C3: `get_balance a` equals the amounts received by `a` in sealed blocks
minus the amounts sent by `a` in sealed blocks; the pending pool contributes
nothing; and a transaction with sender = recipient = `a` leaves the running
balance unchanged. -/
theorem get_balance_correct (bc : Blockchain) (a : String) :
    get_balance bc a = receivedSum bc.chain a - sentSum bc.chain a ∧
    (∀ p, get_balance { bc with pending_transactions := p } a = get_balance bc a) ∧
    (∀ (bal amt : Int) (ts ty : String),
      process_transaction a bal
        { tx_from := a, tx_to := a, amount := amt,
          tx_timestamp := ts, tx_type := ty } = bal) := by
  refine ⟨?_, fun p => rfl, ?_⟩
  · rw [get_balance, foldl_blocks_eq, net_split, receivedSum, sentSum]
    ring
  · intro bal amt ts ty
    simp [process_transaction]

/-! ### C8: transaction admission -/

/-- C8: `add_transaction` appends the transaction at the end of the pending
pool unconditionally and leaves the chain, the difficulty and the mining
reward unchanged. -/
theorem add_transaction_appends (bc : Blockchain) (t : Transaction) :
    (add_transaction bc t).pending_transactions = bc.pending_transactions ++ [t] ∧
    (add_transaction bc t).chain = bc.chain ∧
    (add_transaction bc t).difficulty = bc.difficulty ∧
    (add_transaction bc t).mining_reward = bc.mining_reward :=
  ⟨rfl, rfl, rfl, rfl⟩

/-! ### C4, C5, C6: mining a block into the chain -/

/-- `chain[-1]` agrees with `List.getLast` on a non-empty chain. -/
theorem get_latest_block_eq (bc : Blockchain) (h : bc.chain ≠ []) :
    get_latest_block bc = bc.chain.getLast h := by
  rw [get_latest_block, List.getLastD_eq_getLast?,
    List.getLast?_eq_getLast _ h, Option.getD_some]

/-- What one successful `mine_pending_transactions` call does to the ledger:
append the mined block, whose static fields are those of the constructed
block, and clear the pool, touching nothing else. -/
theorem mine_pending_props (H : HashFun) (fuel : Nat) (bc : Blockchain)
    (addr rewardTs : String) (blockTs : Nat) (bc' : Blockchain) (blk : Block)
    (h : mine_pending_transactions H fuel bc addr rewardTs blockTs
      = some (bc', blk)) :
    bc'.chain = bc.chain ++ [blk] ∧
    blk.index = bc.chain.length ∧
    blk.previous_hash = (get_latest_block bc).hash ∧
    blk.transactions = bc.pending_transactions
      ++ [reward_transaction addr bc.mining_reward rewardTs] ∧
    bc'.pending_transactions = [] ∧
    bc'.difficulty = bc.difficulty ∧
    bc'.mining_reward = bc.mining_reward := by
  rw [mine_pending_transactions] at h
  cases hm : mine_block H bc.difficulty fuel
      (Block.new H bc.chain.length
        (bc.pending_transactions
          ++ [reward_transaction addr bc.mining_reward rewardTs]) blockTs
        (get_latest_block bc).hash 0) with
  | none => rw [hm] at h; exact absurd h (by simp)
  | some mined =>
    rw [hm, Option.some.injEq, Prod.mk.injEq] at h
    obtain ⟨h1, h2⟩ := h
    subst h1; subst h2
    obtain ⟨p1, p2, p3, p4, -, -, -⟩ := mine_block_props H bc.difficulty fuel _ _ hm
    exact ⟨rfl, p1, p4, p2, rfl, rfl, rfl⟩

/-- C4: a successful `mine_pending_transactions` appends exactly one block:
its index is the prior chain length, its previous_hash is the prior tip's
stored digest, its transactions are the prior pool followed by the one
mining-reward transaction (sender "SYSTEM", recipient the reward address,
amount the mining reward constant, kind mining_reward) as last element, and
the pool is empty afterwards. -/
theorem mine_pending_spec (H : HashFun) (fuel : Nat) (bc : Blockchain)
    (addr rewardTs : String) (blockTs : Nat) (bc' : Blockchain) (blk : Block)
    (h : mine_pending_transactions H fuel bc addr rewardTs blockTs
      = some (bc', blk)) :
    bc'.chain = bc.chain ++ [blk] ∧
    blk.index = bc.chain.length ∧
    (∀ hne : bc.chain ≠ [], blk.previous_hash = (bc.chain.getLast hne).hash) ∧
    blk.transactions = bc.pending_transactions
      ++ [reward_transaction addr bc.mining_reward rewardTs] ∧
    bc'.pending_transactions = [] ∧
    (reward_transaction addr bc.mining_reward rewardTs).tx_from = "SYSTEM" ∧
    (reward_transaction addr bc.mining_reward rewardTs).tx_to = addr ∧
    (reward_transaction addr bc.mining_reward rewardTs).amount = bc.mining_reward ∧
    (reward_transaction addr bc.mining_reward rewardTs).tx_type = "mining_reward" := by
  obtain ⟨h1, h2, h3, h4, h5, -, -⟩ :=
    mine_pending_props H fuel bc addr rewardTs blockTs bc' blk h
  refine ⟨h1, h2, ?_, h4, h5, rfl, rfl, rfl, rfl⟩
  intro hne
  rw [h3, get_latest_block_eq bc hne]

/-- The block mined by the C4 witness run (under `H0` the very first digest
meets difficulty 2, so the nonce stays 0). -/
def minedBlock0 : Block :=
  Block.new H0 1 [reward_transaction "A" 100 "t"] 1 "00abc" 0

/-- The ledger state after the C4 witness run. -/
def minedLedger0 : Blockchain :=
  { chain := (Blockchain.init H0 0).chain ++ [minedBlock0], difficulty := 2,
    pending_transactions := [], mining_reward := 100 }

/-- Witness for C4: one concrete successful mine on a fresh ledger. -/
theorem mine_pending_spec_witness :
    mine_pending_transactions H0 1 (Blockchain.init H0 0) "A" "t" 1
      = some (minedLedger0, minedBlock0) ∧
    (minedLedger0.chain = (Blockchain.init H0 0).chain ++ [minedBlock0] ∧
      minedBlock0.index = (Blockchain.init H0 0).chain.length ∧
      (∀ hne : (Blockchain.init H0 0).chain ≠ [],
        minedBlock0.previous_hash
          = ((Blockchain.init H0 0).chain.getLast hne).hash) ∧
      minedBlock0.transactions = (Blockchain.init H0 0).pending_transactions
        ++ [reward_transaction "A" (Blockchain.init H0 0).mining_reward "t"] ∧
      minedLedger0.pending_transactions = [] ∧
      (reward_transaction "A" (Blockchain.init H0 0).mining_reward "t").tx_from
        = "SYSTEM" ∧
      (reward_transaction "A" (Blockchain.init H0 0).mining_reward "t").tx_to
        = "A" ∧
      (reward_transaction "A" (Blockchain.init H0 0).mining_reward "t").amount
        = (Blockchain.init H0 0).mining_reward ∧
      (reward_transaction "A" (Blockchain.init H0 0).mining_reward "t").tx_type
        = "mining_reward") :=
  ⟨by decide,
    mine_pending_spec H0 1 (Blockchain.init H0 0) "A" "t" 1 minedLedger0
      minedBlock0 (by decide)⟩

/-- Unfolding equation for `mine_pending_transactions`. -/
theorem mine_pending_eq (H : HashFun) (fuel : Nat) (bc : Blockchain)
    (addr rewardTs : String) (blockTs : Nat) :
    mine_pending_transactions H fuel bc addr rewardTs blockTs
      = match mine_block H bc.difficulty fuel
          (Block.new H bc.chain.length
            (bc.pending_transactions
              ++ [reward_transaction addr bc.mining_reward rewardTs]) blockTs
            (get_latest_block bc).hash 0) with
        | none => none
        | some mined =>
          some ({ bc with chain := bc.chain ++ [mined], pending_transactions := [] }, mined) := rfl

/-- C6: mining with an empty pending pool still succeeds (whenever any nonce
can satisfy the difficulty predicate, the proof-of-work search terminates)
and the sealed block carries exactly one transaction, the mining reward. -/
theorem mine_pending_empty_pool (H : HashFun) (bc : Blockchain)
    (addr rewardTs : String) (blockTs : Nat) (k : Nat)
    (hp : bc.pending_transactions = [])
    (hk : hashMeets bc.difficulty
      (hashAt H (Block.new H bc.chain.length
        [reward_transaction addr bc.mining_reward rewardTs] blockTs
        (get_latest_block bc).hash 0) k) = true) :
    ∃ bc' blk,
      mine_pending_transactions H (k + 1) bc addr rewardTs blockTs
        = some (bc', blk) ∧
      blk.transactions = [reward_transaction addr bc.mining_reward rewardTs] ∧
      blk.transactions.length = 1 ∧
      (reward_transaction addr bc.mining_reward rewardTs).tx_type
        = "mining_reward" := by
  have hk' := hk
  rw [show k = (Block.new H bc.chain.length
    [reward_transaction addr bc.mining_reward rewardTs] blockTs
    (get_latest_block bc).hash 0).nonce + k from (Nat.zero_add k).symm] at hk'
  obtain ⟨b', hmine, h1, h2, h3, h4, h5, h6, h7, h8⟩ :=
    mine_block_find H bc.difficulty k _ rfl hk'
  refine ⟨{ bc with chain := bc.chain ++ [b'], pending_transactions := [] }, b', ?_, ?_, ?_, rfl⟩
  · rw [mine_pending_eq, hp, List.nil_append, hmine]
  · exact h2
  · rw [h2]; rfl

/-- Witness for C6: a fresh ledger has an empty pool, and one mine call on it
seals a block holding exactly the reward transaction. -/
theorem mine_pending_empty_pool_witness :
    (Blockchain.init H0 0).pending_transactions = [] ∧
    (∃ bc' blk,
      mine_pending_transactions H0 (0 + 1) (Blockchain.init H0 0) "A" "t" 1
        = some (bc', blk) ∧
      blk.transactions
        = [reward_transaction "A" (Blockchain.init H0 0).mining_reward "t"] ∧
      blk.transactions.length = 1 ∧
      (reward_transaction "A" (Blockchain.init H0 0).mining_reward "t").tx_type
        = "mining_reward") :=
  ⟨rfl, mine_pending_empty_pool H0 (Blockchain.init H0 0) "A" "t" 1 0 rfl (by decide)⟩

/-- In every reachable ledger state the chain is non-empty and consecutively
digest-linked. -/
theorem reachable_invariant (H : HashFun) (bc : Blockchain)
    (h : Reachable H bc) : bc.chain ≠ [] ∧ List.Chain' chainLink bc.chain := by
  induction h with
  | init ts => exact ⟨by simp [Blockchain.init], by simp [Blockchain.init]⟩
  | add t _ ih => exact ih
  | mine fuel addr rewardTs blockTs _ heq ih =>
    obtain ⟨hne, hchain⟩ := ih
    obtain ⟨h1, -, h3, -, -, -, -⟩ := mine_pending_props _ _ _ _ _ _ _ _ heq
    constructor
    · rw [h1]; simp
    · rw [h1, List.chain'_append]
      refine ⟨hchain, by simp, ?_⟩
      intro x hx y hy
      simp only [List.head?_cons, Option.mem_def, Option.some.injEq] at hy
      rw [List.getLast?_eq_getLast _ hne, Option.mem_def, Option.some.injEq] at hx
      subst hy
      subst hx
      simp only [chainLink]
      rw [h3, get_latest_block_eq _ hne]

/-- C5: in every state reachable by add_transaction and mine_pending calls,
every block's previous_hash equals its predecessor's stored digest, and
neither operation ever shrinks the chain. -/
theorem reachable_chain_linked (H : HashFun) (bc : Blockchain)
    (h : Reachable H bc) :
    (∀ i (hi : i + 1 < bc.chain.length),
      (bc.chain.get ⟨i + 1, hi⟩).previous_hash
        = (bc.chain.get ⟨i, Nat.lt_of_succ_lt hi⟩).hash) ∧
    (∀ t, bc.chain.length ≤ (add_transaction bc t).chain.length) ∧
    (∀ fuel addr rewardTs blockTs bc' blk,
      mine_pending_transactions H fuel bc addr rewardTs blockTs
        = some (bc', blk) →
      bc.chain.length ≤ bc'.chain.length) := by
  obtain ⟨-, hchain⟩ := reachable_invariant H bc h
  refine ⟨?_, fun t => le_refl _, ?_⟩
  · intro i hi
    exact List.chain'_iff_get.mp hchain i (by omega)
  · intro fuel addr rewardTs blockTs bc' blk heq
    obtain ⟨h1, -, -, -, -, -, -⟩ := mine_pending_props _ _ _ _ _ _ _ _ heq
    rw [h1, List.length_append]
    omega

/-- Witness for C5 at the initial ledger state. -/
theorem reachable_chain_linked_witness :
    (∀ i (hi : i + 1 < (Blockchain.init H0 0).chain.length),
      ((Blockchain.init H0 0).chain.get ⟨i + 1, hi⟩).previous_hash
        = ((Blockchain.init H0 0).chain.get ⟨i, Nat.lt_of_succ_lt hi⟩).hash) ∧
    (∀ t, (Blockchain.init H0 0).chain.length
      ≤ (add_transaction (Blockchain.init H0 0) t).chain.length) ∧
    (∀ fuel addr rewardTs blockTs bc' blk,
      mine_pending_transactions H0 fuel (Blockchain.init H0 0) addr rewardTs
          blockTs = some (bc', blk) →
      (Blockchain.init H0 0).chain.length ≤ bc'.chain.length) :=
  reachable_chain_linked H0 (Blockchain.init H0 0) (Reachable.init 0)
